import Mathlib

/-!
Verification of the regex-analyzer pattern engine.

This file gives a shallow embedding of the repository's core
(`src/pattern.rs`: the `GroupTree`/`GroupVec` flattening structure and the
two analyzer strategies), of the drivers in `src/lib.rs`, and of the
pattern-selection logic of `src/main.rs`, together with theorems about the
specified properties.

Modelling conventions:
* The `regex` crate is an external dependency; a compiled regex is modelled
  abstractly as its two observable operations `is_match` and `find_iter`
  (the latter returning the list of matched substrings of a line,
  leftmost-first and non-overlapping, as the crate documents).
* Rust `u64`/`usize` counters are modelled as `Nat`; the counters only ever
  grow by 1 per processed line or match, and overflow aborts a debug build
  rather than producing a wrapped count.
* `HashMap<String, u64>` is modelled as an association list with unique
  keys; the map's iteration order is arbitrary in Rust, and no theorem
  below depends on the particular order the model chooses (insertion
  order).
* `Vec::sort` is a stable sort by the derived `Ord`; it is modelled by
  `List.insertionSort`, which is also stable, over the same comparison.
* Terminal output (`println!`) is modelled as a list of emitted lines; the
  `format` methods additionally thread through their (unused) writer
  argument, see `PatternCounter.format` below.
-/

namespace RegexAnalyzer

/-- A compiled regular expression, modelled abstractly by its observable
matching behaviour: `is_match line` tells whether the regex matches
somewhere in `line`, and `find_iter line` lists the texts of all
non-overlapping matches in `line`, leftmost-first (the `regex` crate's
`Regex::is_match` / `Regex::find_iter`). -/
structure Regex where
  is_match : String → Bool
  find_iter : String → List String

/-- Actual pattern instance, which holds its name and its regex
(`Pattern` in `src/pattern.rs`). -/
structure Pattern where
  name : String
  regex : Regex

/-- Represents a generic tree which contains named groups
(`group::GroupTree` in `src/pattern.rs`). -/
inductive GroupTree (α : Type) where
  | Leaf (a : α)
  | Group (name : String) (group : List (GroupTree α))

mutual
/-- The leaf payloads of a tree, in depth-first order. -/
def GroupTree.leaves {α : Type} : GroupTree α → List α
  | .Leaf a => [a]
  | .Group _ g => GroupTree.leavesList g

/-- The leaf payloads of a forest, in depth-first order. -/
def GroupTree.leavesList {α : Type} : List (GroupTree α) → List α
  | [] => []
  | t :: ts => t.leaves ++ GroupTree.leavesList ts
end

/-- Comparison of two characters, by code point. Rust's derived `Ord` on
`String` compares UTF-8 bytes, and UTF-8 byte order coincides with code
point order. -/
def charCmp (a b : Char) : Ordering := compare a.toNat b.toNat

/-- Lexicographic comparison of two character lists. -/
def charsCmp : List Char → List Char → Ordering
  | [], [] => .eq
  | [], _ :: _ => .lt
  | _ :: _, [] => .gt
  | a :: xs, b :: ys =>
      match charCmp a b with
      | .eq => charsCmp xs ys
      | o => o

/-- Rust's `Ord` on `String`: lexicographic on the characters. -/
def strCmp (a b : String) : Ordering := charsCmp a.data b.data

mutual
/-- Rust's derived `Ord` on `GroupTree<usize>`: variants compare by
declaration order (`Leaf` before `Group`), `Leaf` by its index, `Group`
lexicographically by name and then by the children list. -/
def GroupTree.cmp : GroupTree Nat → GroupTree Nat → Ordering
  | .Leaf a, .Leaf b => compare a b
  | .Leaf _, .Group _ _ => .lt
  | .Group _ _, .Leaf _ => .gt
  | .Group n₁ g₁, .Group n₂ g₂ =>
      match strCmp n₁ n₂ with
      | .eq => GroupTree.cmpList g₁ g₂
      | o => o

/-- Rust's derived `Ord` on `Vec<GroupTree<usize>>`: lexicographic. -/
def GroupTree.cmpList : List (GroupTree Nat) → List (GroupTree Nat) → Ordering
  | [], [] => .eq
  | [], _ :: _ => .lt
  | _ :: _, [] => .gt
  | x :: xs, y :: ys =>
      match GroupTree.cmp x y with
      | .eq => GroupTree.cmpList xs ys
      | o => o
end

/-- The non-strict order used by `Vec::sort`: `a` may precede `b` exactly
when `a.cmp(b) != Greater`. -/
def treeLe (a b : GroupTree Nat) : Prop := a.cmp b ≠ .gt

instance : DecidableRel treeLe := fun a b => by
  unfold treeLe; infer_instance

/-- `inner_group.sort()` / `inner.sort()` of `GroupVec::from_tree`:
a stable sort by the derived `Ord` on `GroupTree<usize>`. -/
def sortTrees (l : List (GroupTree Nat)) : List (GroupTree Nat) :=
  l.insertionSort treeLe

/-- `group::GroupVec` of `src/pattern.rs`: the shadow forest `inner` of
flat indices, and the flattened per-pattern state `flattened`. -/
structure GroupVec (V : Type) where
  inner : List (GroupTree Nat)
  flattened : List V

mutual
/-- Helper function that traverses the GroupTree and consumes it, creating
the GroupVec (the nested `traverse` of `GroupVec::from_tree`): a leaf is
converted, appended to the flat vector, and replaced by its index; a
group's children are traversed in order and then sorted. -/
def GroupVec.traverse {T V : Type} (conv : T → V) :
    GroupTree T → List V → GroupTree Nat × List V
  | .Leaf other, vec => (.Leaf vec.length, vec ++ [conv other])
  | .Group name g, vec =>
      let p := GroupVec.traverseList conv g vec
      (.Group name (sortTrees p.1), p.2)

/-- Traversal of a list of trees, threading the flat vector left to
right (the `for item in group` loop of `traverse`). -/
def GroupVec.traverseList {T V : Type} (conv : T → V) :
    List (GroupTree T) → List V → List (GroupTree Nat) × List V
  | [], vec => ([], vec)
  | t :: ts, vec =>
      let p := GroupVec.traverse conv t vec
      let q := GroupVec.traverseList conv ts p.2
      (p.1 :: q.1, q.2)
end

/-- `GroupVec::from_tree`: traverse the whole forest and then sort the
top-level shadow forest. The Rust code obtains `conv` from the
`group::From` trait; here it is passed explicitly. -/
def GroupVec.from_tree {T V : Type} (conv : T → V)
    (tree_vec : List (GroupTree T)) : GroupVec V :=
  let p := GroupVec.traverseList conv tree_vec []
  ⟨sortTrees p.1, p.2⟩

/-- `num_format`'s `Locale::en` digit grouping, on the reversed digit
list: a comma after every three digits. -/
def groupDigitsRev : List Char → List Char
  | d₁ :: d₂ :: d₃ :: d₄ :: rest =>
      d₁ :: d₂ :: d₃ :: ',' :: groupDigitsRev (d₄ :: rest)
  | ds => ds

/-- `u64::to_formatted_string(&Locale::en)`: decimal digits in groups of
three separated by commas. -/
def to_formatted_string (n : Nat) : String :=
  String.mk (groupDigitsRev (toString n).data.reverse).reverse

namespace counter

/-- Per-pattern state of the counter strategy (`counter::Inner`). -/
structure Inner where
  pattern : Pattern
  count : Nat

instance : Inhabited Inner := ⟨⟨⟨"", ⟨fun _ => false, fun _ => []⟩⟩, 0⟩⟩

/-- `impl group::From<Pattern> for Inner`: the count starts at 0. -/
def Inner.of (other : Pattern) : Inner := ⟨other, 0⟩

/-- `counter::PatternCounter`. -/
structure PatternCounter where
  patterns : GroupVec Inner

/-- `PatternCounter::new`. -/
def PatternCounter.new (tree : List (GroupTree Pattern)) : PatternCounter :=
  ⟨GroupVec.from_tree Inner.of tree⟩

/-- `PatternCounter::analyze`: for every flattened entry, increment its
count when its regex matches the line. -/
def PatternCounter.analyze (self : PatternCounter) (line : String) :
    PatternCounter :=
  ⟨⟨self.patterns.inner,
    self.patterns.flattened.map fun inner =>
      if inner.pattern.regex.is_match line then
        ⟨inner.pattern, inner.count + 1⟩
      else inner⟩⟩

mutual
/-- The nested `traverse` of `PatternCounter::format`, as the list of
lines it prints: a leaf prints `indent` spaces, its name, a colon, a
space and the formatted count; a group prints its name and a colon (with
no indentation — the source applies the padding only in the leaf arm) and
recurses into its children with the indent increased by 2. The source
resolves the leaf index with `slice.get(*index).unwrap()`; the model uses
`getD` with a default, which agrees whenever the index is in range (which
`from_tree` guarantees, see the flattening theorems). -/
def formatTree (slice : List Inner) : GroupTree Nat → Nat → List String
  | .Leaf index, indent =>
      [String.mk (List.replicate indent ' ')
        ++ (slice.getD index default).pattern.name ++ ": "
        ++ to_formatted_string (slice.getD index default).count]
  | .Group name g, _indent =>
      (name ++ ":") :: formatTreeList slice g (_indent + 2)

/-- Formatting of a list of sibling trees, all at the same indent. -/
def formatTreeList (slice : List Inner) :
    List (GroupTree Nat) → Nat → List String
  | [], _ => []
  | t :: ts, indent => formatTree slice t indent ++ formatTreeList slice ts indent
end

/-- `PatternCounter::format`, with output modelled explicitly: the result
is the pair (final writer contents, lines printed to stdout). The source
binds its writer parameter as `_writer` and never writes to it — every
line goes through `println!` — so the writer is returned unchanged. The
source also computes `longest_name` and `longest_count` but never uses
them in the printed lines; that dead computation is omitted. -/
def PatternCounter.format (self : PatternCounter) (writer : List String) :
    List String × List String :=
  (writer, formatTreeList self.patterns.flattened self.patterns.inner 0)

end counter

namespace matcher

/-- Per-pattern state of the matcher strategy (`matcher::Inner`); the
`HashMap<String, u64>` of match frequencies is modelled as an association
list with unique keys. -/
structure Inner where
  pattern : Pattern
  «matches» : List (String × Nat)

instance : Inhabited Inner := ⟨⟨⟨"", ⟨fun _ => false, fun _ => []⟩⟩, []⟩⟩

/-- `impl group::From<Pattern> for Inner`: the match table starts empty. -/
def Inner.of (other : Pattern) : Inner := ⟨other, []⟩

/-- `self.matches.entry(text).or_insert(0); *entry += 1`: increment the
entry for `s`, inserting it with count 1 when absent. -/
def addMatch : List (String × Nat) → String → List (String × Nat)
  | [], s => [(s, 1)]
  | (k, v) :: rest, s =>
      if k = s then (k, v + 1) :: rest else (k, v) :: addMatch rest s

/-- `matcher::PatternMatcher`: the flattened patterns and the configured
`top` cutoff. -/
structure PatternMatcher where
  patterns : GroupVec Inner
  top : Nat

/-- `PatternMatcher::new`. -/
def PatternMatcher.new (tree : List (GroupTree Pattern)) (top : Nat) :
    PatternMatcher :=
  ⟨GroupVec.from_tree Inner.of tree, top⟩

/-- `PatternMatcher::analyze`: for every flattened entry, record every
match of its regex in the line into the match table. -/
def PatternMatcher.analyze (self : PatternMatcher) (line : String) :
    PatternMatcher :=
  ⟨⟨self.patterns.inner,
    self.patterns.flattened.map fun inner =>
      ⟨inner.pattern, (inner.pattern.regex.find_iter line).foldl addMatch inner.matches⟩⟩,
    self.top⟩

/-- Left-pad `s` with spaces to width `w` (Rust's right-aligned format). -/
def padLeft (s : String) (w : Nat) : String :=
  String.mk (List.replicate (w - s.length) ' ') ++ s

/-- Right-pad `s` with spaces to width `w` (Rust's left-aligned format). -/
def padRight (s : String) (w : Nat) : String :=
  s ++ String.mk (List.replicate (w - s.length) ' ')

/-- The width computation of `PatternMatcher::format`: over every entry
among the first `top` of each pattern's table, take the maximum of the
pattern's name length (the source computes `match_len` from
`inner.pattern.name`, not from the matched text) and of the formatted
count length. -/
def widthsInner (top : Nat) (acc : Nat × Nat) (inner : Inner) : Nat × Nat :=
  (inner.matches.take top).foldl
    (fun a kv =>
      (max a.1 inner.pattern.name.length,
       max a.2 (to_formatted_string kv.2).length))
    acc

/-- Both display widths, folded over all flattened patterns. -/
def widths (self : PatternMatcher) : Nat × Nat :=
  self.patterns.flattened.foldl (widthsInner self.top) (0, 0)

/-- The block of lines printed for one flattened pattern: its bare name,
then one tab-indented line per entry among the first `top` of its match
table. The source's entry-line format string has three positional
placeholders but only two positional arguments, so Rust consumes the
named argument `match_len` positionally as the third: the line is the
tab, the match text with a colon left-aligned to width `match_len`
(= `wm + 1`), a space, the formatted count printed by the bare
placeholder with no padding, a space, and the value of `match_len`
itself right-aligned to width `count_len` (= `wc`). -/
def matcherBlock (wm wc top : Nat) (inner : Inner) : List String :=
  inner.pattern.name ::
    (inner.matches.take top).map fun kv =>
      "\t" ++ padRight (kv.1 ++ ":") (wm + 1) ++ " "
        ++ to_formatted_string kv.2 ++ " "
        ++ padLeft (toString (wm + 1)) wc

/-- `PatternMatcher::format`: the pair (final writer contents, lines
printed to stdout). As with the counter, the writer parameter is bound
as `_writer` and never used; all output goes to stdout, pattern blocks in
flat order (the group nesting is not reconstructed). -/
def PatternMatcher.format (self : PatternMatcher) (writer : List String) :
    List String × List String :=
  (writer,
   self.patterns.flattened.flatMap
     (matcherBlock (widths self).1 (widths self).2 self.top))

/-- Sum of the values of a match table. -/
def sumValues (m : List (String × Nat)) : Nat := (m.map Prod.snd).sum

/-- The keys of a match table, in stored order. -/
def keyList (m : List (String × Nat)) : List String := m.map Prod.fst

/-- The recorded count for `s` in a match table (0 when absent). -/
def countOf : List (String × Nat) → String → Nat
  | [], _ => 0
  | (k, v) :: rest, s => if k = s then v else countOf rest s

end matcher

/-- `count_file` of `src/lib.rs`. The file system is modelled by the
`file` argument: `.error e` is a failed `File::open` (whose error message
the source forwards with `map_err`), `.ok lines` a successfully opened
file with its decoded lines in file order. The counter is created first,
exactly as in the source; on an open failure it is discarded and the
error returned, so `analyze` is never invoked. -/
def count_file (file : Except String (List String))
    (tree : List (GroupTree Pattern)) : Except String counter.PatternCounter :=
  let c := counter.PatternCounter.new tree
  match file with
  | .error e => .error e
  | .ok lines => .ok (lines.foldl counter.PatternCounter.analyze c)

/-- `match_file` of `src/lib.rs`; same conventions as `count_file`. -/
def match_file (file : Except String (List String))
    (tree : List (GroupTree Pattern)) (top : Nat) :
    Except String matcher.PatternMatcher :=
  let m := matcher.PatternMatcher.new tree top
  match file with
  | .error e => .error e
  | .ok lines => .ok (lines.foldl matcher.PatternMatcher.analyze m)

namespace cli

/-- The standalone `Pattern` struct of `src/main.rs` (name, compiled
regex, running count). -/
structure Pattern where
  name : String
  pattern : Regex
  count : Nat

/-- Helper for `splitComma`: splits the remaining characters at every
comma, `acc` holding the (reversed) characters of the current piece. -/
def splitCommaAux : List Char → List Char → List String
  | [], acc => [String.mk acc.reverse]
  | c :: rest, acc =>
      if c = ',' then String.mk acc.reverse :: splitCommaAux rest []
      else splitCommaAux rest (c :: acc)

/-- Rust's `str::split(',')`: the pieces of `s` between commas, in order;
an empty string yields one empty piece, as in Rust. -/
def splitComma (s : String) : List String := splitCommaAux s.data []

/-- The pattern-selection step of `main` (`src/main.rs` lines 131-139):
when the optional `--patterns` argument is present, keep only the
patterns whose name occurs in the comma-separated list (the `HashSet`
membership test of the source); otherwise keep the full loaded set. -/
def selectPatterns (filter : Option String) (patterns : List Pattern) :
    List Pattern :=
  match filter with
  | some f => patterns.filter fun p => (splitComma f).contains p.name
  | none => patterns

end cli

/-! ### Specification-level auxiliary definitions

These definitions are not part of the source; they name observations of
the embedded structures that the theorems below are stated over. -/

mutual
/-- The flat indices stored at the leaves of a shadow tree, in stored
depth-first order. -/
def GroupTree.indices : GroupTree Nat → List Nat
  | .Leaf i => [i]
  | .Group _ g => GroupTree.indicesList g

/-- The flat indices of a shadow forest. -/
def GroupTree.indicesList : List (GroupTree Nat) → List Nat
  | [] => []
  | t :: ts => t.indices ++ GroupTree.indicesList ts
end

/-- The recursive sortedness invariant of a shadow tree: every group's
children list is pairwise ordered by `treeLe`, at every depth. -/
inductive SortedTree : GroupTree Nat → Prop where
  | leaf (i : Nat) : SortedTree (.Leaf i)
  | group (name : String) (g : List (GroupTree Nat))
      (hp : List.Pairwise treeLe g) (hc : ∀ t ∈ g, SortedTree t) :
      SortedTree (.Group name g)

mutual
/-- The depth-first emission sequence of the counter's `format` traversal:
one entry per printed line, independent of the flat slice — `inl (indent,
index)` for a leaf line, `inr name` for a group header line. -/
def seqTree : GroupTree Nat → Nat → List (Nat × Nat ⊕ String)
  | .Leaf index, indent => [.inl (indent, index)]
  | .Group name g, indent => .inr name :: seqTreeList g (indent + 2)

/-- Emission sequence of a list of sibling trees at one indent. -/
def seqTreeList : List (GroupTree Nat) → Nat → List (Nat × Nat ⊕ String)
  | [], _ => []
  | t :: ts, indent => seqTree t indent ++ seqTreeList ts indent
end

/-- Rendering of one emission entry as the counter's `format` prints it. -/
def renderNode (slice : List counter.Inner) : Nat × Nat ⊕ String → String
  | .inl (indent, index) =>
      String.mk (List.replicate indent ' ')
        ++ (slice.getD index default).pattern.name ++ ": "
        ++ to_formatted_string (slice.getD index default).count
  | .inr name => name ++ ":"

/-- The name printed by one emission entry (leaf name or group name);
counts do not enter. -/
def nodeName (slice : List counter.Inner) : Nat × Nat ⊕ String → String
  | .inl (_, index) => (slice.getD index default).pattern.name
  | .inr name => name

/-! ### Properties of the comparison functions -/

theorem charCmp_eq_iff (a b : Char) : charCmp a b = .eq ↔ a = b := by
  unfold charCmp
  rw [Nat.compare_eq_eq]
  constructor
  · intro h
    exact Char.ext (UInt32.toNat.inj h)
  · intro h
    rw [h]

theorem charCmp_swap (a b : Char) : charCmp a b = (charCmp b a).swap :=
  (Nat.compare_swap _ _).symm

theorem charCmp_lt_trans {a b c : Char} (h₁ : charCmp a b = .lt)
    (h₂ : charCmp b c = .lt) : charCmp a c = .lt := by
  unfold charCmp at *
  rw [Nat.compare_eq_lt] at *
  omega

theorem charsCmp_eq_iff : ∀ (xs ys : List Char), charsCmp xs ys = .eq ↔ xs = ys
  | [], [] => by simp [charsCmp]
  | [], _ :: _ => by simp [charsCmp]
  | _ :: _, [] => by simp [charsCmp]
  | a :: xs, b :: ys => by
      simp only [charsCmp]
      cases h : charCmp a b with
      | eq =>
          rw [charCmp_eq_iff] at h
          simp [h, charsCmp_eq_iff xs ys]
      | lt =>
          have hne : a ≠ b := by
            intro hab
            rw [hab, (charCmp_eq_iff b b).mpr rfl] at h
            cases h
          simp [hne]
      | gt =>
          have hne : a ≠ b := by
            intro hab
            rw [hab, (charCmp_eq_iff b b).mpr rfl] at h
            cases h
          simp [hne]

theorem charsCmp_swap : ∀ (xs ys : List Char), charsCmp xs ys = (charsCmp ys xs).swap
  | [], [] => rfl
  | [], _ :: _ => rfl
  | _ :: _, [] => rfl
  | a :: xs, b :: ys => by
      simp only [charsCmp]
      rw [charCmp_swap a b]
      cases charCmp b a <;> simp [Ordering.swap]
      exact charsCmp_swap xs ys

theorem charsCmp_lt_trans : ∀ {xs ys zs : List Char},
    charsCmp xs ys = .lt → charsCmp ys zs = .lt → charsCmp xs zs = .lt
  | [], [], [], h₁, _ => by simp [charsCmp] at h₁
  | [], [], _ :: _, _, _ => rfl
  | [], _ :: _, [], _, h₂ => by simp [charsCmp] at h₂
  | [], _ :: _, _ :: _, _, _ => rfl
  | _ :: _, [], _, h₁, _ => by simp [charsCmp] at h₁
  | _ :: _, _ :: _, [], _, h₂ => by simp [charsCmp] at h₂
  | a :: xs, b :: ys, c :: zs, h₁, h₂ => by
      simp only [charsCmp] at h₁ h₂ ⊢
      cases hab : charCmp a b with
      | gt => simp [hab] at h₁
      | lt =>
          cases hbc : charCmp b c with
          | gt => simp [hbc] at h₂
          | lt => simp [charCmp_lt_trans hab hbc]
          | eq =>
              rw [charCmp_eq_iff] at hbc
              subst hbc
              simp [hab]
      | eq =>
          rw [charCmp_eq_iff] at hab
          subst hab
          have haa : charCmp a a = .eq := by rw [charCmp_eq_iff]
          rw [haa] at h₁
          cases hac : charCmp a c with
          | gt =>
              rw [hac] at h₂
              simp at h₂
          | lt => rfl
          | eq =>
              rw [hac] at h₂
              exact charsCmp_lt_trans h₁ h₂

theorem strCmp_eq_iff (a b : String) : strCmp a b = .eq ↔ a = b := by
  unfold strCmp
  rw [charsCmp_eq_iff]
  constructor
  · intro h
    cases a; cases b; simp_all
  · intro h
    rw [h]

theorem strCmp_swap (a b : String) : strCmp a b = (strCmp b a).swap :=
  charsCmp_swap _ _

theorem strCmp_lt_trans {a b c : String} (h₁ : strCmp a b = .lt)
    (h₂ : strCmp b c = .lt) : strCmp a c = .lt :=
  charsCmp_lt_trans h₁ h₂

mutual
theorem cmp_swap : ∀ (a b : GroupTree Nat), a.cmp b = (b.cmp a).swap
  | .Leaf _, .Leaf _ => (Nat.compare_swap _ _).symm
  | .Leaf _, .Group _ _ => rfl
  | .Group _ _, .Leaf _ => rfl
  | .Group n₁ g₁, .Group n₂ g₂ => by
      simp only [GroupTree.cmp]
      rw [strCmp_swap n₁ n₂]
      cases strCmp n₂ n₁ with
      | eq => exact cmpList_swap g₁ g₂
      | lt => rfl
      | gt => rfl

theorem cmpList_swap : ∀ (xs ys : List (GroupTree Nat)),
    GroupTree.cmpList xs ys = (GroupTree.cmpList ys xs).swap
  | [], [] => rfl
  | [], _ :: _ => rfl
  | _ :: _, [] => rfl
  | x :: xs, y :: ys => by
      simp only [GroupTree.cmpList]
      rw [cmp_swap x y]
      cases y.cmp x with
      | eq => exact cmpList_swap xs ys
      | lt => rfl
      | gt => rfl
end

mutual
theorem cmp_eq_iff : ∀ (a b : GroupTree Nat), a.cmp b = .eq ↔ a = b
  | .Leaf i, .Leaf j => by
      simp [GroupTree.cmp, Nat.compare_eq_eq]
  | .Leaf _, .Group _ _ => by
      simp [GroupTree.cmp]
  | .Group _ _, .Leaf _ => by
      simp [GroupTree.cmp]
  | .Group n₁ g₁, .Group n₂ g₂ => by
      simp only [GroupTree.cmp]
      cases h : strCmp n₁ n₂ with
      | eq =>
          rw [strCmp_eq_iff] at h
          simp [h, cmp_eq_iff_list g₁ g₂]
      | lt =>
          have hne : n₁ ≠ n₂ := by
            intro he
            rw [he, (strCmp_eq_iff n₂ n₂).mpr rfl] at h
            cases h
          simp [hne]
      | gt =>
          have hne : n₁ ≠ n₂ := by
            intro he
            rw [he, (strCmp_eq_iff n₂ n₂).mpr rfl] at h
            cases h
          simp [hne]

theorem cmp_eq_iff_list : ∀ (xs ys : List (GroupTree Nat)),
    GroupTree.cmpList xs ys = .eq ↔ xs = ys
  | [], [] => by simp [GroupTree.cmpList]
  | [], _ :: _ => by simp [GroupTree.cmpList]
  | _ :: _, [] => by simp [GroupTree.cmpList]
  | x :: xs, y :: ys => by
      simp only [GroupTree.cmpList]
      cases h : x.cmp y with
      | eq =>
          rw [cmp_eq_iff] at h
          simp [h, cmp_eq_iff_list xs ys]
      | lt =>
          have hne : x ≠ y := by
            intro he
            rw [he, (cmp_eq_iff y y).mpr rfl] at h
            cases h
          simp [hne]
      | gt =>
          have hne : x ≠ y := by
            intro he
            rw [he, (cmp_eq_iff y y).mpr rfl] at h
            cases h
          simp [hne]
end

mutual
theorem cmp_lt_trans : ∀ {a b c : GroupTree Nat},
    a.cmp b = .lt → b.cmp c = .lt → a.cmp c = .lt
  | .Leaf i, .Leaf j, .Leaf k, h₁, h₂ => by
      simp only [GroupTree.cmp, Nat.compare_eq_lt] at *
      omega
  | .Leaf _, .Leaf _, .Group _ _, _, _ => rfl
  | .Leaf _, .Group _ _, .Group _ _, _, _ => rfl
  | .Leaf _, .Group _ _, .Leaf _, _, h₂ => by cases h₂
  | .Group _ _, .Leaf _, _, h₁, _ => by cases h₁
  | .Group _ _, .Group _ _, .Leaf _, _, h₂ => by cases h₂
  | .Group n₁ g₁, .Group n₂ g₂, .Group n₃ g₃, h₁, h₂ => by
      simp only [GroupTree.cmp] at h₁ h₂ ⊢
      cases hab : strCmp n₁ n₂ with
      | gt => rw [hab] at h₁; cases h₁
      | lt =>
          cases hbc : strCmp n₂ n₃ with
          | gt => rw [hbc] at h₂; cases h₂
          | lt => rw [strCmp_lt_trans hab hbc]
          | eq =>
              rw [strCmp_eq_iff] at hbc
              subst hbc
              rw [hab]
      | eq =>
          rw [strCmp_eq_iff] at hab
          subst hab
          rw [(strCmp_eq_iff n₁ n₁).mpr rfl] at h₁
          cases hac : strCmp n₁ n₃ with
          | gt => rw [hac] at h₂; cases h₂
          | lt => rfl
          | eq =>
              rw [hac] at h₂
              exact cmpList_lt_trans h₁ h₂

theorem cmpList_lt_trans : ∀ {xs ys zs : List (GroupTree Nat)},
    GroupTree.cmpList xs ys = .lt → GroupTree.cmpList ys zs = .lt →
    GroupTree.cmpList xs zs = .lt
  | [], [], [], h₁, _ => by cases h₁
  | [], [], _ :: _, _, _ => rfl
  | [], _ :: _, [], _, h₂ => by cases h₂
  | [], _ :: _, _ :: _, _, _ => rfl
  | _ :: _, [], _, h₁, _ => by cases h₁
  | _ :: _, _ :: _, [], _, h₂ => by cases h₂
  | x :: xs, y :: ys, z :: zs, h₁, h₂ => by
      simp only [GroupTree.cmpList] at h₁ h₂ ⊢
      cases hab : x.cmp y with
      | gt => rw [hab] at h₁; cases h₁
      | lt =>
          cases hbc : y.cmp z with
          | gt => rw [hbc] at h₂; cases h₂
          | lt => rw [cmp_lt_trans hab hbc]
          | eq =>
              rw [cmp_eq_iff] at hbc
              subst hbc
              rw [hab]
      | eq =>
          rw [cmp_eq_iff] at hab
          subst hab
          rw [(cmp_eq_iff x x).mpr rfl] at h₁
          cases hac : x.cmp z with
          | gt => rw [hac] at h₂; cases h₂
          | lt => rfl
          | eq =>
              rw [hac] at h₂
              exact cmpList_lt_trans h₁ h₂
end

instance : IsTotal (GroupTree Nat) treeLe where
  total a b := by
    unfold treeLe
    cases h : a.cmp b with
    | lt => exact Or.inl (by simp [h])
    | eq => exact Or.inl (by simp [h])
    | gt =>
        refine Or.inr ?_
        rw [cmp_swap b a, h]
        simp [Ordering.swap]

instance : IsTrans (GroupTree Nat) treeLe where
  trans a b c h₁ h₂ := by
    unfold treeLe at *
    cases hab : a.cmp b with
    | gt => exact absurd hab h₁
    | eq =>
        rw [cmp_eq_iff] at hab
        subst hab
        exact h₂
    | lt =>
        cases hbc : b.cmp c with
        | gt => exact absurd hbc h₂
        | eq =>
            rw [cmp_eq_iff] at hbc
            subst hbc
            simp [hab]
        | lt => simp [cmp_lt_trans hab hbc]

/-! ### Properties of the flattening traversal -/

theorem indicesList_eq_flatMap (l : List (GroupTree Nat)) :
    GroupTree.indicesList l = l.flatMap GroupTree.indices := by
  induction l with
  | nil => rfl
  | cons t ts ih => simp [GroupTree.indicesList, ih]

theorem leavesList_eq_flatMap {α : Type} (l : List (GroupTree α)) :
    GroupTree.leavesList l = l.flatMap GroupTree.leaves := by
  induction l with
  | nil => rfl
  | cons t ts ih => simp [GroupTree.leavesList, ih]

theorem indicesList_sortTrees (l : List (GroupTree Nat)) :
    (GroupTree.indicesList (sortTrees l)).Perm (GroupTree.indicesList l) := by
  rw [indicesList_eq_flatMap, indicesList_eq_flatMap]
  exact (List.perm_insertionSort treeLe l).flatMap_right _

mutual
theorem trav_snd {T V : Type} (conv : T → V) (t : GroupTree T) (vec : List V) :
    (GroupVec.traverse conv t vec).2 = vec ++ t.leaves.map conv := by
  match t with
  | .Leaf a => simp [GroupVec.traverse, GroupTree.leaves]
  | .Group n g =>
      simp only [GroupVec.traverse, GroupTree.leaves]
      exact travList_snd conv g vec

theorem travList_snd {T V : Type} (conv : T → V) (ts : List (GroupTree T))
    (vec : List V) :
    (GroupVec.traverseList conv ts vec).2 = vec ++ (GroupTree.leavesList ts).map conv := by
  match ts with
  | [] => simp [GroupVec.traverseList, GroupTree.leavesList]
  | t :: ts₂ =>
      simp only [GroupVec.traverseList, GroupTree.leavesList, List.map_append,
        List.append_assoc]
      rw [travList_snd conv ts₂, trav_snd conv t]
      simp
end

mutual
theorem trav_indices {T V : Type} (conv : T → V) (t : GroupTree T)
    (vec : List V) :
    ((GroupVec.traverse conv t vec).1.indices).Perm
      (List.range' vec.length t.leaves.length) := by
  match t with
  | .Leaf a => simp [GroupVec.traverse, GroupTree.leaves, GroupTree.indices,
      List.range']
  | .Group n g =>
      simp only [GroupVec.traverse, GroupTree.leaves, GroupTree.indices]
      exact (indicesList_sortTrees _).trans (travList_indices conv g vec)

theorem travList_indices {T V : Type} (conv : T → V) (ts : List (GroupTree T))
    (vec : List V) :
    (GroupTree.indicesList (GroupVec.traverseList conv ts vec).1).Perm
      (List.range' vec.length (GroupTree.leavesList ts).length) := by
  match ts with
  | [] => simp [GroupVec.traverseList, GroupTree.leavesList, GroupTree.indicesList]
  | t :: ts₂ =>
      simp only [GroupVec.traverseList, GroupTree.leavesList, GroupTree.indicesList]
      have hlen : (GroupVec.traverse conv t vec).2.length
          = vec.length + t.leaves.length := by
        rw [trav_snd conv t vec]
        simp
      have h₁ := trav_indices conv t vec
      have h₂ := travList_indices conv ts₂ (GroupVec.traverse conv t vec).2
      rw [hlen] at h₂
      have h₃ := h₁.append h₂
      rw [List.range'_append_1] at h₃
      simp only [List.length_append]
      rw [Nat.add_comm t.leaves.length (GroupTree.leavesList ts₂).length]
      exact h₃

end

mutual
theorem trav_sorted {T V : Type} (conv : T → V) (t : GroupTree T)
    (vec : List V) : SortedTree (GroupVec.traverse conv t vec).1 := by
  match t with
  | .Leaf a => exact SortedTree.leaf _
  | .Group n g =>
      refine SortedTree.group _ _ ?_ ?_
      · exact List.sorted_insertionSort treeLe _
      · intro t' ht'
        simp only [sortTrees, List.mem_insertionSort] at ht'
        exact travList_sorted conv g vec t' ht'

theorem travList_sorted {T V : Type} (conv : T → V) (ts : List (GroupTree T))
    (vec : List V) :
    ∀ s ∈ (GroupVec.traverseList conv ts vec).1, SortedTree s := by
  match ts with
  | [] => intro s hs; simp [GroupVec.traverseList] at hs
  | t :: ts₂ =>
      intro s hs
      simp only [GroupVec.traverseList, List.mem_cons] at hs
      cases hs with
      | inl h => exact h ▸ trav_sorted conv t vec
      | inr h => exact travList_sorted conv ts₂ _ s h
end

theorem from_tree_flattened {T V : Type} (conv : T → V)
    (forest : List (GroupTree T)) :
    (GroupVec.from_tree conv forest).flattened
      = (GroupTree.leavesList forest).map conv := by
  unfold GroupVec.from_tree
  simpa using travList_snd conv forest []

theorem from_tree_indices {T V : Type} (conv : T → V)
    (forest : List (GroupTree T)) :
    (GroupTree.indicesList (GroupVec.from_tree conv forest).inner).Perm
      (List.range (GroupTree.leavesList forest).length) := by
  unfold GroupVec.from_tree
  rw [List.range_eq_range']
  simpa using (indicesList_sortTrees _).trans (travList_indices conv forest [])

theorem from_tree_inner_sorted {T V : Type} (conv : T → V)
    (forest : List (GroupTree T)) :
    (GroupVec.from_tree conv forest).inner.Pairwise treeLe
      ∧ ∀ t ∈ (GroupVec.from_tree conv forest).inner, SortedTree t := by
  have h : (GroupVec.from_tree conv forest).inner
      = sortTrees (GroupVec.traverseList conv forest []).1 := rfl
  rw [h]
  constructor
  · exact List.sorted_insertionSort treeLe _
  · intro t ht
    simp only [sortTrees, List.mem_insertionSort] at ht
    exact travList_sorted conv forest [] t ht

/-! ### Indexing helpers -/

theorem getD_eq_getElem_of_lt {α : Type} (l : List α) (d : α) {i : Nat}
    (h : i < l.length) : l.getD i d = l[i] := by
  simp [List.getD_eq_getElem?_getD, List.getElem?_eq_getElem h]

theorem getD_map {α β : Type} (f : α → β) (l : List α) (i : Nat) (d : β)
    (d' : α) (h : i < l.length) :
    (l.map f).getD i d = f (l.getD i d') := by
  rw [getD_eq_getElem_of_lt l d' h,
    getD_eq_getElem_of_lt (l.map f) d (by simpa using h)]
  simp

theorem map_getD_range {α : Type} (l : List α) (d : α) :
    (List.range l.length).map (fun j => l.getD j d) = l := by
  apply List.ext_getElem (by simp)
  intro i h₁ h₂
  simp only [List.getElem_map, List.getElem_range]
  exact getD_eq_getElem_of_lt l d h₂

/-! ### Counter strategy: analysis helpers -/

theorem counter_analyze_length (pc : counter.PatternCounter) (line : String) :
    (pc.analyze line).patterns.flattened.length = pc.patterns.flattened.length := by
  simp [counter.PatternCounter.analyze]

theorem counter_analyze_getD (pc : counter.PatternCounter) (line : String)
    (i : Nat) (d : counter.Inner) (h : i < pc.patterns.flattened.length) :
    (pc.analyze line).patterns.flattened.getD i d
      = (if (pc.patterns.flattened.getD i d).pattern.regex.is_match line then
          ⟨(pc.patterns.flattened.getD i d).pattern,
           (pc.patterns.flattened.getD i d).count + 1⟩
        else pc.patterns.flattened.getD i d) :=
  getD_map _ _ i d d h

theorem counter_fold_getD :
    ∀ (lines : List String) (pc : counter.PatternCounter) (i : Nat)
      (d : counter.Inner), i < pc.patterns.flattened.length →
    (lines.foldl counter.PatternCounter.analyze pc).patterns.flattened.getD i d
      = ⟨(pc.patterns.flattened.getD i d).pattern,
         (pc.patterns.flattened.getD i d).count
           + lines.countP
               (fun l => (pc.patterns.flattened.getD i d).pattern.regex.is_match l)⟩
  | [], pc, i, d, h => by simp
  | line :: rest, pc, i, d, h => by
      simp only [List.foldl_cons]
      rw [counter_fold_getD rest (pc.analyze line) i d
        (by rw [counter_analyze_length]; exact h)]
      rw [counter_analyze_getD pc line i d h]
      by_cases hm : (pc.patterns.flattened.getD i d).pattern.regex.is_match line
      · simp only [hm, if_true, List.countP_cons]
        simp [hm]
        omega
      · simp only [hm, if_false, List.countP_cons]
        simp [hm]

/-! ### Matcher strategy: match-table helpers -/

namespace matcher

theorem addMatch_sumValues (m : List (String × Nat)) (s : String) :
    sumValues (addMatch m s) = sumValues m + 1 := by
  induction m with
  | nil => simp [addMatch, sumValues]
  | cons kv rest ih =>
      obtain ⟨k, v⟩ := kv
      by_cases hk : k = s
      · simp [addMatch, hk, sumValues]
        omega
      · simp [addMatch, hk, sumValues] at ih ⊢
        omega

theorem addMatch_countOf (m : List (String × Nat)) (s t : String) :
    countOf (addMatch m s) t = countOf m t + (if t = s then 1 else 0) := by
  induction m with
  | nil =>
      by_cases ht : t = s
      · simp [addMatch, countOf, ht]
      · simp [addMatch, countOf, ht, Ne.symm ht]
  | cons kv rest ih =>
      obtain ⟨k, v⟩ := kv
      by_cases hk : k = s
      · subst hk
        by_cases ht : t = k
        · subst ht
          simp [addMatch, countOf]
        · have hkt : ¬ k = t := fun h => ht h.symm
          simp [addMatch, countOf, hkt, ht]
      · by_cases ht : t = k
        · have hts : ¬ t = s := fun h => hk (ht.symm.trans h)
          have hkt : k = t := ht.symm
          simp [addMatch, hk, countOf, hkt, hts]
        · have hkt : ¬ k = t := fun h => ht h.symm
          simp [addMatch, hk, countOf, hkt, ih]

theorem addMatch_keyList (m : List (String × Nat)) (s : String) :
    keyList (addMatch m s)
      = if s ∈ keyList m then keyList m else keyList m ++ [s] := by
  induction m with
  | nil => simp [addMatch, keyList]
  | cons kv rest ih =>
      obtain ⟨k, v⟩ := kv
      by_cases hk : k = s
      · simp [addMatch, hk, keyList]
      · have hsk : ¬ s = k := fun h => hk h.symm
        simp only [keyList] at ih
        simp only [addMatch, hk, if_false, keyList, List.map_cons]
        rw [ih]
        by_cases hs : s ∈ List.map Prod.fst rest <;> simp [hs, hsk]

theorem addMatch_mem_keyList (m : List (String × Nat)) (s t : String) :
    t ∈ keyList (addMatch m s) ↔ t ∈ keyList m ∨ t = s := by
  rw [addMatch_keyList]
  by_cases hs : s ∈ keyList m
  · simp only [hs, if_true]
    constructor
    · exact Or.inl
    · intro h
      cases h with
      | inl h => exact h
      | inr h => exact h ▸ hs
  · simp [hs]

theorem addMatch_nodup (m : List (String × Nat)) (s : String)
    (h : (keyList m).Nodup) : (keyList (addMatch m s)).Nodup := by
  rw [addMatch_keyList]
  by_cases hs : s ∈ keyList m
  · simpa [hs] using h
  · simp [hs, List.nodup_append, h]

theorem foldl_addMatch_sumValues (ms : List String) :
    ∀ (m : List (String × Nat)),
    sumValues (ms.foldl addMatch m) = sumValues m + ms.length := by
  induction ms with
  | nil => intro m; simp
  | cons s rest ih =>
      intro m
      simp only [List.foldl_cons, List.length_cons]
      rw [ih (addMatch m s), addMatch_sumValues]
      omega

theorem foldl_addMatch_countOf (ms : List String) :
    ∀ (m : List (String × Nat)) (t : String),
    countOf (ms.foldl addMatch m) t = countOf m t + ms.count t := by
  induction ms with
  | nil => intro m t; simp
  | cons s rest ih =>
      intro m t
      simp only [List.foldl_cons, List.count_cons]
      rw [ih (addMatch m s) t, addMatch_countOf]
      by_cases ht : t = s
      · simp [ht]
        omega
      · simp [ht, Ne.symm ht]

theorem foldl_addMatch_mem (ms : List String) :
    ∀ (m : List (String × Nat)) (t : String),
    t ∈ keyList (ms.foldl addMatch m) ↔ t ∈ keyList m ∨ t ∈ ms := by
  induction ms with
  | nil => intro m t; simp
  | cons s rest ih =>
      intro m t
      simp only [List.foldl_cons, List.mem_cons]
      rw [ih (addMatch m s) t, addMatch_mem_keyList]
      tauto

theorem foldl_addMatch_nodup (ms : List String) :
    ∀ (m : List (String × Nat)), (keyList m).Nodup →
    (keyList (ms.foldl addMatch m)).Nodup := by
  induction ms with
  | nil => intro m h; simpa using h
  | cons s rest ih =>
      intro m h
      simp only [List.foldl_cons]
      exact ih (addMatch m s) (addMatch_nodup m s h)

end matcher

theorem matcher_analyze_length (pm : matcher.PatternMatcher) (line : String) :
    (pm.analyze line).patterns.flattened.length
      = pm.patterns.flattened.length := by
  simp [matcher.PatternMatcher.analyze]

theorem matcher_analyze_getD (pm : matcher.PatternMatcher) (line : String)
    (i : Nat) (d : matcher.Inner) (h : i < pm.patterns.flattened.length) :
    (pm.analyze line).patterns.flattened.getD i d
      = ⟨(pm.patterns.flattened.getD i d).pattern,
         ((pm.patterns.flattened.getD i d).pattern.regex.find_iter line).foldl
           matcher.addMatch (pm.patterns.flattened.getD i d).matches⟩ :=
  getD_map _ _ i d d h

theorem matcher_fold_getD :
    ∀ (lines : List String) (pm : matcher.PatternMatcher) (i : Nat)
      (d : matcher.Inner), i < pm.patterns.flattened.length →
    (lines.foldl matcher.PatternMatcher.analyze pm).patterns.flattened.getD i d
      = ⟨(pm.patterns.flattened.getD i d).pattern,
         (lines.flatMap
             (fun l => (pm.patterns.flattened.getD i d).pattern.regex.find_iter l)).foldl
           matcher.addMatch (pm.patterns.flattened.getD i d).matches⟩
  | [], pm, i, d, h => by simp
  | line :: rest, pm, i, d, h => by
      simp only [List.foldl_cons, List.flatMap_cons]
      rw [matcher_fold_getD rest (pm.analyze line) i d
        (by rw [matcher_analyze_length]; exact h)]
      rw [matcher_analyze_getD pm line i d h]
      simp [List.foldl_append]

/-! ### Counter formatting: structural emission -/

mutual
theorem formatTree_eq_seq (slice : List counter.Inner) (t : GroupTree Nat)
    (indent : Nat) :
    counter.formatTree slice t indent = (seqTree t indent).map (renderNode slice) := by
  match t with
  | .Leaf i => simp [counter.formatTree, seqTree, renderNode]
  | .Group n g =>
      simp only [counter.formatTree, seqTree, List.map_cons]
      rw [formatTreeList_eq_seq slice g (indent + 2)]
      rfl

theorem formatTreeList_eq_seq (slice : List counter.Inner)
    (ts : List (GroupTree Nat)) (indent : Nat) :
    counter.formatTreeList slice ts indent
      = (seqTreeList ts indent).map (renderNode slice) := by
  match ts with
  | [] => simp [counter.formatTreeList, seqTreeList]
  | t :: ts₂ =>
      simp only [counter.formatTreeList, seqTreeList, List.map_append]
      rw [formatTree_eq_seq slice t indent, formatTreeList_eq_seq slice ts₂ indent]
end

theorem nodeName_congr (s₁ s₂ : List counter.Inner)
    (h : s₁.map (fun x => x.pattern.name) = s₂.map (fun x => x.pattern.name))
    (node : Nat × Nat ⊕ String) : nodeName s₁ node = nodeName s₂ node := by
  match node with
  | .inr n => rfl
  | .inl (ind, ix) =>
      simp only [nodeName]
      have hlen : s₁.length = s₂.length := by
        have hc := congrArg List.length h
        simpa using hc
      by_cases hix : ix < s₁.length
      · have e₁ := getD_map (fun x : counter.Inner => x.pattern.name) s₁ ix "" default hix
        have e₂ := getD_map (fun x : counter.Inner => x.pattern.name) s₂ ix "" default
          (hlen ▸ hix)
        calc (s₁.getD ix default).pattern.name
            = (List.map (fun x : counter.Inner => x.pattern.name) s₁).getD ix "" :=
              e₁.symm
          _ = (List.map (fun x : counter.Inner => x.pattern.name) s₂).getD ix "" := by
              rw [h]
          _ = (s₂.getD ix default).pattern.name := e₂
      · have h₁ : s₁.getD ix default = default := by
          simp [List.getD_eq_getElem?_getD, List.getElem?_eq_none (Nat.le_of_not_lt hix)]
        have h₂ : s₂.getD ix default = default := by
          simp [List.getD_eq_getElem?_getD,
            List.getElem?_eq_none (Nat.le_of_not_lt (hlen ▸ hix))]
        rw [h₁, h₂]

/-! ### Round-trip helpers shared by the flattening claims -/

theorem leavesList_perm {α : Type} {f₁ f₂ : List (GroupTree α)}
    (h : f₁.Perm f₂) :
    (GroupTree.leavesList f₁).Perm (GroupTree.leavesList f₂) := by
  rw [leavesList_eq_flatMap, leavesList_eq_flatMap]
  exact h.flatMap_right _

theorem flatten_length {V : Type} (conv : Pattern → V)
    (forest : List (GroupTree Pattern)) :
    (GroupVec.from_tree conv forest).flattened.length
      = (GroupTree.leavesList forest).length := by
  rw [from_tree_flattened]
  simp

theorem flatten_names_perm {V : Type} (conv : Pattern → V) (nm : V → String)
    (hn : ∀ p, nm (conv p) = p.name) (forest : List (GroupTree Pattern))
    (d : V) :
    ((GroupTree.indicesList (GroupVec.from_tree conv forest).inner).map
        (fun j => nm ((GroupVec.from_tree conv forest).flattened.getD j d))).Perm
      ((GroupTree.leavesList forest).map Pattern.name) := by
  have hfl := from_tree_flattened conv forest
  have hidx := from_tree_indices conv forest
  have hperm := hidx.map
    (fun j => nm ((GroupVec.from_tree conv forest).flattened.getD j d))
  refine hperm.trans (List.Perm.of_eq ?_)
  rw [← flatten_length conv forest]
  rw [show (fun j => nm ((GroupVec.from_tree conv forest).flattened.getD j d))
      = nm ∘ (fun j => (GroupVec.from_tree conv forest).flattened.getD j d) from rfl,
    ← List.map_map, map_getD_range, hfl, List.map_map]
  exact List.map_congr_left (fun p _ => hn p)

theorem new_counter_entry (tree : List (GroupTree Pattern)) (i : Nat)
    (d : counter.Inner) (h : i < (counter.PatternCounter.new tree).patterns.flattened.length) :
    (counter.PatternCounter.new tree).patterns.flattened.getD i d
      = counter.Inner.of
          ((GroupTree.leavesList tree).getD i
            ⟨"", ⟨fun _ => false, fun _ => []⟩⟩) := by
  have hfl : (counter.PatternCounter.new tree).patterns.flattened
      = (GroupTree.leavesList tree).map counter.Inner.of :=
    from_tree_flattened _ _
  rw [hfl] at h ⊢
  rw [getD_map counter.Inner.of _ i d _ (by simpa using h)]

theorem new_matcher_entry (tree : List (GroupTree Pattern)) (top i : Nat)
    (d : matcher.Inner)
    (h : i < (matcher.PatternMatcher.new tree top).patterns.flattened.length) :
    (matcher.PatternMatcher.new tree top).patterns.flattened.getD i d
      = matcher.Inner.of
          ((GroupTree.leavesList tree).getD i
            ⟨"", ⟨fun _ => false, fun _ => []⟩⟩) := by
  have hfl : (matcher.PatternMatcher.new tree top).patterns.flattened
      = (GroupTree.leavesList tree).map matcher.Inner.of :=
    from_tree_flattened _ _
  rw [hfl] at h ⊢
  rw [getD_map matcher.Inner.of _ i d _ (by simpa using h)]

/-! ### Claim theorems -/

/-- C1: a single call of the Counter strategy's `analyze(L)` increases
each flattened pattern's count by exactly 1 when the pattern's regex
matches `L` and by 0 otherwise — never by the number of occurrences of
the regex within `L`; the pattern itself, the number of flattened
entries, and the shadow forest are unchanged. -/
theorem C1_counter_increment (pc : counter.PatternCounter) (line : String)
    (i : Nat) (d : counter.Inner) (h : i < pc.patterns.flattened.length) :
    ((pc.analyze line).patterns.flattened.getD i d).count
        = (pc.patterns.flattened.getD i d).count
          + (if (pc.patterns.flattened.getD i d).pattern.regex.is_match line
             then 1 else 0)
      ∧ ((pc.analyze line).patterns.flattened.getD i d).pattern
          = (pc.patterns.flattened.getD i d).pattern
      ∧ (pc.analyze line).patterns.flattened.length = pc.patterns.flattened.length
      ∧ (pc.analyze line).patterns.inner = pc.patterns.inner := by
  have he := counter_analyze_getD pc line i d h
  refine ⟨?_, ?_, counter_analyze_length pc line, rfl⟩
  · rw [he]
    by_cases hm : (pc.patterns.flattened.getD i d).pattern.regex.is_match line
    · rw [if_pos hm, if_pos hm]
    · rw [if_neg hm, if_neg hm]
      exact (Nat.add_zero _).symm
  · rw [he]
    by_cases hm : (pc.patterns.flattened.getD i d).pattern.regex.is_match line
    · rw [if_pos hm]
    · rw [if_neg hm]

/-- Witness for C1 at a concrete counter and line. -/
theorem C1_witness :
    0 < ((counter.PatternCounter.mk
        ⟨[.Leaf 0], [⟨⟨"d", ⟨fun s => s.length > 2, fun _ => []⟩⟩, 7⟩]⟩).patterns.flattened.length)
    ∧ (((counter.PatternCounter.mk
        ⟨[.Leaf 0], [⟨⟨"d", ⟨fun s => s.length > 2, fun _ => []⟩⟩, 7⟩]⟩).analyze
          "abc").patterns.flattened.getD 0 default).count
        = (((counter.PatternCounter.mk
        ⟨[.Leaf 0], [⟨⟨"d", ⟨fun s => s.length > 2, fun _ => []⟩⟩, 7⟩]⟩).patterns.flattened.getD 0 default).count
          + (if ((counter.PatternCounter.mk
        ⟨[.Leaf 0], [⟨⟨"d", ⟨fun s => s.length > 2, fun _ => []⟩⟩, 7⟩]⟩).patterns.flattened.getD 0 default).pattern.regex.is_match
              "abc" then 1 else 0)) :=
  ⟨by decide,
   (C1_counter_increment
     (counter.PatternCounter.mk
        ⟨[.Leaf 0], [⟨⟨"d", ⟨fun s => s.length > 2, fun _ => []⟩⟩, 7⟩]⟩)
     "abc" 0 default (by decide)).1⟩

/-- C5: the Matcher's formatted output consists of one block per
flattened pattern; each block shows exactly `min top (table size)` match
entries after its name line, hence at most `top` and never more than the
match table holds; and the `top` field plays no role in `analyze` — the
recorded state depends only on the patterns. -/
theorem C5_top_cutoff (pm : matcher.PatternMatcher) (i : Nat)
    (d : matcher.Inner) (w : List String) (pats : GroupVec matcher.Inner)
    (t₁ t₂ : Nat) (line : String) :
    (pm.format w).2
        = pm.patterns.flattened.flatMap
            (matcher.matcherBlock (matcher.widths pm).1 (matcher.widths pm).2 pm.top)
      ∧ (matcher.matcherBlock (matcher.widths pm).1 (matcher.widths pm).2 pm.top
            (pm.patterns.flattened.getD i d)).tail.length
          = min pm.top (pm.patterns.flattened.getD i d).matches.length
      ∧ (matcher.matcherBlock (matcher.widths pm).1 (matcher.widths pm).2 pm.top
            (pm.patterns.flattened.getD i d)).tail.length ≤ pm.top
      ∧ (matcher.matcherBlock (matcher.widths pm).1 (matcher.widths pm).2 pm.top
            (pm.patterns.flattened.getD i d)).tail.length
          ≤ (pm.patterns.flattened.getD i d).matches.length
      ∧ ((matcher.PatternMatcher.mk pats t₁).analyze line).patterns
          = ((matcher.PatternMatcher.mk pats t₂).analyze line).patterns := by
  refine ⟨rfl, ?_, ?_, ?_, rfl⟩ <;>
    simp [matcher.matcherBlock, List.length_take]

/-- C10: in the flattened shadow forest every children list (and the top
level) is pairwise sorted by the derived order, under which every leaf
precedes every group, leaves are ordered by their flat index, and groups
are ordered by the lexicographic comparison of their names and then of
their children lists. -/
theorem C10_shadow_sorted {T V : Type} (conv : T → V)
    (forest : List (GroupTree T)) :
    ((GroupVec.from_tree conv forest).inner.Pairwise treeLe
        ∧ ∀ t ∈ (GroupVec.from_tree conv forest).inner, SortedTree t)
      ∧ (∀ (i : Nat) (n : String) (g : List (GroupTree Nat)),
          treeLe (.Leaf i) (.Group n g) ∧ ¬treeLe (.Group n g) (.Leaf i))
      ∧ (∀ i j : Nat, treeLe (.Leaf i) (.Leaf j) ↔ i ≤ j)
      ∧ (∀ (n₁ : String) (g₁ : List (GroupTree Nat)) (n₂ : String)
          (g₂ : List (GroupTree Nat)),
          treeLe (.Group n₁ g₁) (.Group n₂ g₂)
            ↔ (strCmp n₁ n₂ = .lt ∨ (n₁ = n₂ ∧ GroupTree.cmpList g₁ g₂ ≠ .gt))) := by
  refine ⟨from_tree_inner_sorted conv forest, ?_, ?_, ?_⟩
  · intro i n g
    constructor
    · intro hc
      simp [GroupTree.cmp] at hc
    · intro hc
      exact hc rfl
  · intro i j
    unfold treeLe
    simp only [GroupTree.cmp]
    constructor
    · intro hc
      by_contra hij
      exact hc (Nat.compare_eq_gt.mpr (Nat.lt_of_not_le hij))
    · intro hij hc
      rw [Nat.compare_eq_gt] at hc
      omega
  · intro n₁ g₁ n₂ g₂
    unfold treeLe
    simp only [GroupTree.cmp]
    cases hn : strCmp n₁ n₂ with
    | lt => simp [hn]
    | gt =>
        have hne : n₁ ≠ n₂ := by
          intro he
          rw [he, (strCmp_eq_iff n₂ n₂).mpr rfl] at hn
          cases hn
        simp [hn, hne]
    | eq =>
        have he := (strCmp_eq_iff n₁ n₂).mp hn
        simp [hn, he]

/-- Witness for C10: the sorted-forest invariant and the order
characterizations applied at concrete inputs. -/
theorem C10_witness :
    SortedTree (.Leaf 0)
      ∧ treeLe (.Leaf 3) (.Group "x" [])
      ∧ (treeLe (.Leaf 1) (.Leaf 2) ↔ 1 ≤ 2) :=
  ⟨(C10_shadow_sorted (fun n : Nat => n) [.Leaf 5]).1.2 (.Leaf 0) (List.Mem.head _),
   ((C10_shadow_sorted (fun n : Nat => n) []).2.1 3 "x" []).1,
   (C10_shadow_sorted (fun n : Nat => n) []).2.2.1 1 2⟩

/-- C9 is refuted at a concrete invocation: with `--patterns a` supplied,
`main` keeps only the patterns named in the list, so the analyzed set is
a strict subset of the loaded set. -/
theorem C9_counterexample :
    cli.selectPatterns (some "a")
        [⟨"a", ⟨fun _ => false, fun _ => []⟩, 0⟩,
         ⟨"b", ⟨fun _ => false, fun _ => []⟩, 0⟩]
      ≠ [⟨"a", ⟨fun _ => false, fun _ => []⟩, 0⟩,
         ⟨"b", ⟨fun _ => false, fun _ => []⟩, 0⟩] := by
  intro hEq
  have hlen := congrArg List.length hEq
  have h₁ : (cli.selectPatterns (some "a")
      [⟨"a", ⟨fun _ => false, fun _ => []⟩, 0⟩,
       ⟨"b", ⟨fun _ => false, fun _ => []⟩, 0⟩]).length = 1 := rfl
  rw [h₁] at hlen
  simp at hlen

/-- C9 amended: the system does support pattern-set filtering by name —
when the optional `--patterns` argument is absent the full loaded set is
analyzed, and when it is present the analyzed set is exactly the loaded
patterns whose name occurs in the comma-separated list (in particular a
sublist of the loaded set). -/
theorem C9_pattern_filtering (ps : List cli.Pattern) (f : String) :
    cli.selectPatterns none ps = ps
      ∧ cli.selectPatterns (some f) ps
          = ps.filter (fun p => (cli.splitComma f).contains p.name)
      ∧ (cli.selectPatterns (some f) ps).Sublist ps :=
  ⟨rfl, rfl, List.filter_sublist _⟩

/-- C3: `from_tree` produces a flat sequence whose length is the total
leaf count of the input forest, every leaf index of the shadow forest is
a valid position of the flat sequence, and walking the shadow forest
collecting the names stored at the indexed flat entries yields the same
multiset of pattern names as the direct traversal of the input forest
(`nm` reads a flat entry's name; both strategies' conversions preserve
it, as witnessed by the hypothesis). -/
theorem C3_flatten_round_trip {V : Type} (conv : Pattern → V)
    (nm : V → String) (hn : ∀ p, nm (conv p) = p.name)
    (forest : List (GroupTree Pattern)) (d : V) :
    (GroupVec.from_tree conv forest).flattened.length
        = (GroupTree.leavesList forest).length
      ∧ (∀ j ∈ GroupTree.indicesList (GroupVec.from_tree conv forest).inner,
          j < (GroupVec.from_tree conv forest).flattened.length)
      ∧ ((GroupTree.indicesList (GroupVec.from_tree conv forest).inner).map
            (fun j => nm ((GroupVec.from_tree conv forest).flattened.getD j d))).Perm
          ((GroupTree.leavesList forest).map Pattern.name) := by
  refine ⟨flatten_length conv forest, ?_, flatten_names_perm conv nm hn forest d⟩
  intro j hj
  have hm := (from_tree_indices conv forest).mem_iff.mp hj
  rw [List.mem_range] at hm
  rw [flatten_length conv forest]
  exact hm

/-- Witness for C3 at a concrete nested forest. -/
theorem C3_witness :
    (∀ p : Pattern, (counter.Inner.of p).pattern.name = p.name)
      ∧ (GroupVec.from_tree counter.Inner.of
            [.Group "net" [.Leaf ⟨"ip", ⟨fun _ => false, fun _ => []⟩⟩,
                           .Leaf ⟨"port", ⟨fun _ => false, fun _ => []⟩⟩]]).flattened.length
          = (GroupTree.leavesList
              [.Group "net" [.Leaf (⟨"ip", ⟨fun _ => false, fun _ => []⟩⟩ : Pattern),
                             .Leaf (⟨"port", ⟨fun _ => false, fun _ => []⟩⟩ : Pattern)]]).length :=
  ⟨fun _ => rfl,
   (C3_flatten_round_trip counter.Inner.of (fun v => v.pattern.name)
      (fun _ => rfl)
      [.Group "net" [.Leaf ⟨"ip", ⟨fun _ => false, fun _ => []⟩⟩,
                     .Leaf ⟨"port", ⟨fun _ => false, fun _ => []⟩⟩]]
      default).1⟩

/-- C2: after the Matcher strategy has analyzed every line, each
flattened pattern's match table sums to the total number of
non-overlapping regex occurrences (`find_iter` results) across all
processed lines, its keys are pairwise distinct, a substring is a key
exactly when it occurred as a match, and each key's value is that
substring's total number of occurrences (1 on first sighting,
incremented by 1 thereafter). -/
theorem C2_matcher_table (tree : List (GroupTree Pattern)) (top : Nat)
    (lines : List String) (i : Nat) (d : matcher.Inner)
    (h : i < (matcher.PatternMatcher.new tree top).patterns.flattened.length) :
    ((lines.foldl matcher.PatternMatcher.analyze
        (matcher.PatternMatcher.new tree top)).patterns.flattened.getD i d).pattern
        = ((matcher.PatternMatcher.new tree top).patterns.flattened.getD i d).pattern
      ∧ matcher.sumValues
          ((lines.foldl matcher.PatternMatcher.analyze
              (matcher.PatternMatcher.new tree top)).patterns.flattened.getD i d).matches
        = (lines.flatMap (fun l =>
            ((matcher.PatternMatcher.new tree top).patterns.flattened.getD
              i d).pattern.regex.find_iter l)).length
      ∧ (matcher.keyList
          ((lines.foldl matcher.PatternMatcher.analyze
              (matcher.PatternMatcher.new tree top)).patterns.flattened.getD i d).matches).Nodup
      ∧ (∀ s : String,
          s ∈ matcher.keyList
              ((lines.foldl matcher.PatternMatcher.analyze
                  (matcher.PatternMatcher.new tree top)).patterns.flattened.getD i d).matches
            ↔ s ∈ lines.flatMap (fun l =>
                ((matcher.PatternMatcher.new tree top).patterns.flattened.getD
                  i d).pattern.regex.find_iter l))
      ∧ (∀ s : String,
          matcher.countOf
              ((lines.foldl matcher.PatternMatcher.analyze
                  (matcher.PatternMatcher.new tree top)).patterns.flattened.getD i d).matches s
            = (lines.flatMap (fun l =>
                ((matcher.PatternMatcher.new tree top).patterns.flattened.getD
                  i d).pattern.regex.find_iter l)).count s) := by
  have hfold := matcher_fold_getD lines (matcher.PatternMatcher.new tree top) i d h
  have hinit : ((matcher.PatternMatcher.new tree top).patterns.flattened.getD i d).matches
      = [] := by
    rw [new_matcher_entry tree top i d h]
    rfl
  rw [hfold, hinit]
  refine ⟨rfl, ?_, ?_, ?_, ?_⟩
  · rw [matcher.foldl_addMatch_sumValues]
    simp [matcher.sumValues]
  · exact matcher.foldl_addMatch_nodup _ [] (by simp [matcher.keyList])
  · intro s
    rw [matcher.foldl_addMatch_mem]
    simp [matcher.keyList]
  · intro s
    rw [matcher.foldl_addMatch_countOf]
    simp [matcher.countOf]

/-- Witness for C2 at the specification's scenario: pattern `num` over
the lines `a1 b2` and `a1 c3`. -/
theorem C2_witness :
    0 < ((matcher.PatternMatcher.new
          [.Leaf ⟨"num", ⟨fun _ => false,
            fun s => if s = "a1 b2" then ["1", "2"]
              else if s = "a1 c3" then ["1", "3"] else []⟩⟩]
          10).patterns.flattened.length)
      ∧ matcher.sumValues
          ((["a1 b2", "a1 c3"].foldl matcher.PatternMatcher.analyze
              (matcher.PatternMatcher.new
                [.Leaf ⟨"num", ⟨fun _ => false,
                  fun s => if s = "a1 b2" then ["1", "2"]
                    else if s = "a1 c3" then ["1", "3"] else []⟩⟩]
                10)).patterns.flattened.getD 0 default).matches
        = (["a1 b2", "a1 c3"].flatMap (fun l =>
            ((matcher.PatternMatcher.new
                [.Leaf ⟨"num", ⟨fun _ => false,
                  fun s => if s = "a1 b2" then ["1", "2"]
                    else if s = "a1 c3" then ["1", "3"] else []⟩⟩]
                10).patterns.flattened.getD 0 default).pattern.regex.find_iter l)).length :=
  ⟨by decide,
   (C2_matcher_table
      [.Leaf ⟨"num", ⟨fun _ => false,
        fun s => if s = "a1 b2" then ["1", "2"]
          else if s = "a1 c3" then ["1", "3"] else []⟩⟩]
      10 ["a1 b2", "a1 c3"] 0 default (by decide)).2.1⟩

/-- C4 is refuted at a concrete pair of forests: the same two groups
presented in the two possible orders flatten to different shadow
forests — the sibling groups are sorted by name, but the flat indices
they carry follow the input traversal order. -/
theorem C4_counterexample :
    ([GroupTree.Group "b" [.Leaf (⟨"pa", ⟨fun _ => false, fun _ => []⟩⟩ : Pattern)],
      GroupTree.Group "a" [.Leaf (⟨"pb", ⟨fun _ => false, fun _ => []⟩⟩ : Pattern)]].Perm
     [GroupTree.Group "a" [.Leaf (⟨"pb", ⟨fun _ => false, fun _ => []⟩⟩ : Pattern)],
      GroupTree.Group "b" [.Leaf (⟨"pa", ⟨fun _ => false, fun _ => []⟩⟩ : Pattern)]])
      ∧ (GroupVec.from_tree counter.Inner.of
            [GroupTree.Group "b" [.Leaf ⟨"pa", ⟨fun _ => false, fun _ => []⟩⟩],
             GroupTree.Group "a" [.Leaf ⟨"pb", ⟨fun _ => false, fun _ => []⟩⟩]]).inner
          ≠ (GroupVec.from_tree counter.Inner.of
            [GroupTree.Group "a" [.Leaf ⟨"pb", ⟨fun _ => false, fun _ => []⟩⟩],
             GroupTree.Group "b" [.Leaf ⟨"pa", ⟨fun _ => false, fun _ => []⟩⟩]]).inner := by
  constructor
  · exact List.Perm.swap _ _ _
  · intro hEq
    have h₁ : (GroupVec.from_tree counter.Inner.of
        [GroupTree.Group "b" [.Leaf (⟨"pa", ⟨fun _ => false, fun _ => []⟩⟩ : Pattern)],
         GroupTree.Group "a" [.Leaf (⟨"pb", ⟨fun _ => false, fun _ => []⟩⟩ : Pattern)]]).inner
        = [.Group "a" [.Leaf 1], .Group "b" [.Leaf 0]] := rfl
    have h₂ : (GroupVec.from_tree counter.Inner.of
        [GroupTree.Group "a" [.Leaf (⟨"pb", ⟨fun _ => false, fun _ => []⟩⟩ : Pattern)],
         GroupTree.Group "b" [.Leaf (⟨"pa", ⟨fun _ => false, fun _ => []⟩⟩ : Pattern)]]).inner
        = [.Group "a" [.Leaf 0], .Group "b" [.Leaf 1]] := rfl
    rw [h₁, h₂] at hEq
    simp at hEq

/-- C4 amended: flattening permuted forests yields the same multiset of
pattern names (reading names through the shadow indices), but not
necessarily identical shadow forests or identical name order — sibling
groups are sorted by name while the flat indices they reference follow
the input traversal order, so the flattening's output ordering depends
on the input's iteration order. -/
theorem C4_flatten_perm {V : Type} (conv : Pattern → V) (nm : V → String)
    (hn : ∀ p, nm (conv p) = p.name) (f₁ f₂ : List (GroupTree Pattern))
    (d : V) (hperm : f₁.Perm f₂) :
    ((GroupTree.indicesList (GroupVec.from_tree conv f₁).inner).map
        (fun j => nm ((GroupVec.from_tree conv f₁).flattened.getD j d))).Perm
      ((GroupTree.indicesList (GroupVec.from_tree conv f₂).inner).map
        (fun j => nm ((GroupVec.from_tree conv f₂).flattened.getD j d))) :=
  ((flatten_names_perm conv nm hn f₁ d).trans
    ((leavesList_perm hperm).map Pattern.name)).trans
    (flatten_names_perm conv nm hn f₂ d).symm

/-- Witness for C4 amended at the counterexample's forests. -/
theorem C4_witness :
    ([GroupTree.Group "b" [.Leaf (⟨"pa", ⟨fun _ => false, fun _ => []⟩⟩ : Pattern)],
      GroupTree.Group "a" [.Leaf (⟨"pb", ⟨fun _ => false, fun _ => []⟩⟩ : Pattern)]].Perm
     [GroupTree.Group "a" [.Leaf (⟨"pb", ⟨fun _ => false, fun _ => []⟩⟩ : Pattern)],
      GroupTree.Group "b" [.Leaf (⟨"pa", ⟨fun _ => false, fun _ => []⟩⟩ : Pattern)]])
      ∧ ((GroupTree.indicesList (GroupVec.from_tree counter.Inner.of
            [GroupTree.Group "b" [.Leaf ⟨"pa", ⟨fun _ => false, fun _ => []⟩⟩],
             GroupTree.Group "a" [.Leaf ⟨"pb", ⟨fun _ => false, fun _ => []⟩⟩]]).inner).map
          (fun j => ((GroupVec.from_tree counter.Inner.of
            [GroupTree.Group "b" [.Leaf ⟨"pa", ⟨fun _ => false, fun _ => []⟩⟩],
             GroupTree.Group "a" [.Leaf ⟨"pb", ⟨fun _ => false, fun _ => []⟩⟩]]).flattened.getD
              j default).pattern.name)).Perm
        ((GroupTree.indicesList (GroupVec.from_tree counter.Inner.of
            [GroupTree.Group "a" [.Leaf ⟨"pb", ⟨fun _ => false, fun _ => []⟩⟩],
             GroupTree.Group "b" [.Leaf ⟨"pa", ⟨fun _ => false, fun _ => []⟩⟩]]).inner).map
          (fun j => ((GroupVec.from_tree counter.Inner.of
            [GroupTree.Group "a" [.Leaf ⟨"pb", ⟨fun _ => false, fun _ => []⟩⟩],
             GroupTree.Group "b" [.Leaf ⟨"pa", ⟨fun _ => false, fun _ => []⟩⟩]]).flattened.getD
              j default).pattern.name)) :=
  ⟨List.Perm.swap _ _ _,
   C4_flatten_perm counter.Inner.of (fun v => v.pattern.name) (fun _ => rfl)
     [GroupTree.Group "b" [.Leaf ⟨"pa", ⟨fun _ => false, fun _ => []⟩⟩],
      GroupTree.Group "a" [.Leaf ⟨"pb", ⟨fun _ => false, fun _ => []⟩⟩]]
     [GroupTree.Group "a" [.Leaf ⟨"pb", ⟨fun _ => false, fun _ => []⟩⟩],
      GroupTree.Group "b" [.Leaf ⟨"pa", ⟨fun _ => false, fun _ => []⟩⟩]]
     default (List.Perm.swap _ _ _)⟩

/-- C6: the Counter's `format` walks the shadow forest depth-first in
stored order — a leaf emits `name: count` at the current indentation, a
group emits `name:` and recurses into its children with the indentation
increased by the fixed step 2; the emitted line sequence is exactly the
rendering of the structural emission sequence (which does not depend on
the flat slice), the whole report is the forest walked at indentation 0
with the writer passed through untouched, and the sequence of emitted
names is unchanged under any change of the stored counts — output order
is structural, never by count value. -/
theorem C6_counter_format_structure :
    (∀ (slice : List counter.Inner) (ix ind : Nat),
        counter.formatTree slice (.Leaf ix) ind
          = [String.mk (List.replicate ind ' ')
              ++ (slice.getD ix default).pattern.name ++ ": "
              ++ to_formatted_string (slice.getD ix default).count])
      ∧ (∀ (slice : List counter.Inner) (n : String)
          (g : List (GroupTree Nat)) (ind : Nat),
          counter.formatTree slice (.Group n g) ind
            = (n ++ ":") :: counter.formatTreeList slice g (ind + 2))
      ∧ (∀ (slice : List counter.Inner) (t : GroupTree Nat) (ind : Nat),
          counter.formatTree slice t ind = (seqTree t ind).map (renderNode slice))
      ∧ (∀ (pc : counter.PatternCounter) (w : List String),
          pc.format w
            = (w, counter.formatTreeList pc.patterns.flattened pc.patterns.inner 0))
      ∧ (∀ (s₁ s₂ : List counter.Inner) (t : GroupTree Nat) (ind : Nat),
          s₁.map (fun x => x.pattern.name) = s₂.map (fun x => x.pattern.name) →
          (seqTree t ind).map (nodeName s₁) = (seqTree t ind).map (nodeName s₂)) :=
  ⟨fun _ _ _ => rfl,
   fun _ _ _ _ => rfl,
   formatTree_eq_seq,
   fun _ _ => rfl,
   fun s₁ s₂ _t _ind h =>
     List.map_congr_left (fun node _ => nodeName_congr s₁ s₂ h node)⟩

/-- Witness for C6: two slices sharing names but with different counts
emit the same name sequence. -/
theorem C6_witness :
    ([(⟨⟨"x", ⟨fun _ => false, fun _ => []⟩⟩, 0⟩ : counter.Inner)].map
        (fun x => x.pattern.name)
      = [(⟨⟨"x", ⟨fun _ => false, fun _ => []⟩⟩, 99⟩ : counter.Inner)].map
        (fun x => x.pattern.name))
      ∧ (seqTree (.Leaf 0) 0).map
          (nodeName [(⟨⟨"x", ⟨fun _ => false, fun _ => []⟩⟩, 0⟩ : counter.Inner)])
        = (seqTree (.Leaf 0) 0).map
          (nodeName [(⟨⟨"x", ⟨fun _ => false, fun _ => []⟩⟩, 99⟩ : counter.Inner)]) :=
  ⟨rfl,
   C6_counter_format_structure.2.2.2.2
     [⟨⟨"x", ⟨fun _ => false, fun _ => []⟩⟩, 0⟩]
     [⟨⟨"x", ⟨fun _ => false, fun _ => []⟩⟩, 99⟩]
     (.Leaf 0) 0 rfl⟩

/-- C7 is the documented intent, but the code ignores its writer: at a
concrete counter and matcher, `format` returns the supplied sink
unchanged while the whole report is emitted on stdout (the source binds
the parameter as `_writer` and prints with `println!`, contradicting the
trait's doc comment "Writes the results to the given writer"). -/
theorem C7_format_ignores_sink :
    (counter.PatternCounter.mk
        ⟨[.Leaf 0], [⟨⟨"a", ⟨fun _ => false, fun _ => []⟩⟩, 3⟩]⟩).format ["sink"]
        = (["sink"], ["a: 3"])
      ∧ (matcher.PatternMatcher.mk
          ⟨[.Leaf 0], [⟨⟨"num", ⟨fun _ => false, fun _ => []⟩⟩, [("1", 2)]⟩]⟩
          10).format ["sink"]
        = (["sink"], ["num", "\t1:   2 4"]) :=
  ⟨rfl, rfl⟩

/-- C8: when the file cannot be opened, `count_file` and `match_file`
return the I/O error unchanged and no analysis happens; when it opens,
every line is fed to `analyze` by a left fold in file order and the
completed strategy is returned as the success value — so each counter
entry ends at exactly the number of matching lines. -/
theorem C8_driver_io (e : String) (lines : List String)
    (tree : List (GroupTree Pattern)) (top i : Nat) (d : counter.Inner)
    (h : i < (counter.PatternCounter.new tree).patterns.flattened.length) :
    count_file (.error e) tree = .error e
      ∧ match_file (.error e) tree top = .error e
      ∧ count_file (.ok lines) tree
          = .ok (lines.foldl counter.PatternCounter.analyze
              (counter.PatternCounter.new tree))
      ∧ match_file (.ok lines) tree top
          = .ok (lines.foldl matcher.PatternMatcher.analyze
              (matcher.PatternMatcher.new tree top))
      ∧ ((lines.foldl counter.PatternCounter.analyze
            (counter.PatternCounter.new tree)).patterns.flattened.getD i d).count
          = lines.countP (fun l =>
              ((counter.PatternCounter.new tree).patterns.flattened.getD
                i d).pattern.regex.is_match l) := by
  refine ⟨rfl, rfl, rfl, rfl, ?_⟩
  rw [counter_fold_getD lines _ i d h]
  have hinit : ((counter.PatternCounter.new tree).patterns.flattened.getD i d).count
      = 0 := by
    rw [new_counter_entry tree i d h]
    rfl
  rw [hinit]
  simp

/-- Witness for C8 at the specification's counter scenario. -/
theorem C8_witness :
    0 < ((counter.PatternCounter.new
          [.Leaf ⟨"digits", ⟨fun s => s.data.any Char.isDigit, fun _ => []⟩⟩]).patterns.flattened.length)
      ∧ ((["abc123", "456", "xyz"].foldl counter.PatternCounter.analyze
            (counter.PatternCounter.new
              [.Leaf ⟨"digits", ⟨fun s => s.data.any Char.isDigit,
                fun _ => []⟩⟩])).patterns.flattened.getD 0 default).count
          = ["abc123", "456", "xyz"].countP (fun l =>
              ((counter.PatternCounter.new
                  [.Leaf ⟨"digits", ⟨fun s => s.data.any Char.isDigit,
                    fun _ => []⟩⟩]).patterns.flattened.getD
                0 default).pattern.regex.is_match l) :=
  ⟨by decide,
   (C8_driver_io "" ["abc123", "456", "xyz"]
      [.Leaf ⟨"digits", ⟨fun s => s.data.any Char.isDigit, fun _ => []⟩⟩]
      0 0 default (by decide)).2.2.2.2⟩

end RegexAnalyzer
